import Mathlib

/-!
Verification of the template-to-link pipeline of app.py.

Strings are modelled as `List Char`.  Each `py...` definition is a shallow
embedding of the corresponding Python library operation as used by app.py,
restricted to ASCII where noted; the `create_...`, `extract_...` and
`replace_placeholders` definitions are direct translations of the functions
of app.py with the same names.
-/

set_option maxRecDepth 80000

namespace EmailApp

/-- ASCII whitespace recognised by Python's `str.strip` (the Unicode-only
space characters never occur in the claims' inputs and are not modelled). -/
def pySpace (c : Char) : Bool :=
  c == ' ' || c == '\t' || c == '\n' || c == '\r' || c == '\x0b' || c == '\x0c'

/-- ASCII case folding of Python's `str.lower`: the 26 basic latin capitals
shift down by 32, everything else maps to itself (non-ASCII case mappings
never occur in the claims' inputs and are not modelled). -/
def pyLower (c : Char) : Char :=
  if 65 ≤ c.toNat ∧ c.toNat ≤ 90 then Char.ofNat (c.toNat + 32) else c

/-- Python `str.strip()`: drop whitespace from both ends. -/
def pyStrip (s : List Char) : List Char :=
  ((s.dropWhile pySpace).reverse.dropWhile pySpace).reverse

/-- Python `content.split('\n')`. -/
def splitOnNl : List Char → List (List Char)
  | [] => [[]]
  | c :: rest =>
    if c = '\n' then [] :: splitOnNl rest
    else
      match splitOnNl rest with
      | [] => [[c]]
      | l :: ls => (c :: l) :: ls

/-- Python `sep.join(lines)`. -/
def pyJoin (sep : List Char) : List (List Char) → List Char
  | [] => []
  | [x] => x
  | x :: y :: xs => x ++ sep ++ pyJoin sep (y :: xs)

/-- The text after the first colon of a line, if a colon occurs
(the tail used by `line.split(':', 1)[1]`). -/
def afterFirstColon : List Char → Option (List Char)
  | [] => none
  | c :: rest => if c = ':' then some rest else afterFirstColon rest

/-- The subject-marker test from extract_subject_and_body:
`line.strip().lower().startswith('subject:')`. -/
def isSubjectLine (line : List Char) : Bool :=
  "subject:".toList.isPrefixOf ((pyStrip line).map pyLower)

/-- Subject text taken from a marker line: `line.split(':', 1)[1].strip()`.
When the line has no colon Python would raise; the call sites only reach
this after `isSubjectLine`, which guarantees a colon, so the `none` branch
is unreachable there. -/
def subjectOf (line : List Char) : List Char :=
  match afterFirstColon line with
  | some r => pyStrip r
  | none => []

/-- One iteration of the extract_subject_and_body loop over
`(subject, subject_found, body_lines)`.  The redundant `subject_found` flag
of the source is kept: both of its branches append the line. -/
def esbStep (acc : List Char × Bool × List (List Char)) (line : List Char) :
    List Char × Bool × List (List Char) :=
  if isSubjectLine line then (subjectOf line, true, acc.2.2)
  else if acc.2.1 then (acc.1, acc.2.1, acc.2.2 ++ [line])
  else (acc.1, acc.2.1, acc.2.2 ++ [line])

/-- Translation of extract_subject_and_body (app.py lines 31-48). -/
def extract_subject_and_body (content : List Char) : List Char × List Char :=
  let lines := splitOnNl content
  let acc := lines.foldl esbStep (([] : List Char), false, ([] : List (List Char)))
  (acc.1, pyStrip (pyJoin ['\n'] acc.2.2))

/-- One left-to-right scan implementing `re.findall(r'\x7b([^\x7d]+)\x7d', s)`:
leftmost matches, with `[^\x7d]+` greedy up to the next closing brace.  The
second argument holds the characters read since an unclosed opening brace. -/
def scanPH : List Char → Option (List Char) → List (List Char)
  | [], _ => []
  | c :: rest, none =>
    if c = '{' then scanPH rest (some []) else scanPH rest none
  | c :: rest, some buf =>
    if c = '}' then
      if buf = [] then scanPH rest none else buf :: scanPH rest none
    else scanPH rest (some (buf ++ [c]))

/-- The order-preserving deduplication loop of extract_placeholders; `seen`
plays the role of the Python set. -/
def dedupAux : List (List Char) → List (List Char) → List (List Char)
  | _, [] => []
  | seen, x :: xs =>
    if x ∈ seen then dedupAux seen xs else x :: dedupAux (x :: seen) xs

/-- Translation of extract_placeholders (app.py lines 50-60). -/
def extract_placeholders (text : List Char) : List (List Char) :=
  dedupAux [] (scanPH text none)

/-- Fuel-indexed body of Python `str.replace` for a nonempty pattern: at each
position the pattern is tried first, and on a match scanning resumes after
the replaced occurrence (leftmost, non-overlapping).  One unit of fuel is
spent per step; every step consumes at least one character of `s`, so
`s.length` fuel always suffices. -/
def pyReplaceAux : Nat → List Char → List Char → List Char → List Char
  | 0, s, _, _ => s
  | fuel + 1, s, pat, rep =>
    if pat.isPrefixOf s ∧ pat ≠ [] then
      rep ++ pyReplaceAux fuel (s.drop pat.length) pat rep
    else
      match s with
      | [] => []
      | c :: rest => c :: pyReplaceAux fuel rest pat rep

lemma pyReplaceAux_succ (fuel : Nat) (s pat rep : List Char) :
    pyReplaceAux (fuel + 1) s pat rep =
      if pat.isPrefixOf s ∧ pat ≠ [] then
        rep ++ pyReplaceAux fuel (s.drop pat.length) pat rep
      else
        match s with
        | [] => []
        | c :: rest => c :: pyReplaceAux fuel rest pat rep := rfl

/-- Python `s.replace(pat, rep)` for the nonempty patterns used in app.py. -/
def pyReplace (s pat rep : List Char) : List Char :=
  pyReplaceAux s.length s pat rep

/-- Translation of replace_placeholders (app.py lines 62-67); the dict is
modelled as an association list in insertion order, and
`f"\x7b\x7b\x7bplaceholder\x7d\x7d\x7d"` is the literal pattern
`'{' :: name ++ ['}']`. -/
def replace_placeholders (text : List Char) (values : List (List Char × List Char)) : List Char :=
  values.foldl (fun result kv => pyReplace result ('{' :: (kv.1 ++ ['}'])) kv.2) text

/-- UTF-8 bytes of a character (scalar values, as Python encodes them). -/
def utf8Bytes (c : Char) : List Nat :=
  let n := c.toNat
  if n < 0x80 then [n]
  else if n < 0x800 then [0xC0 + n / 0x40, 0x80 + n % 0x40]
  else if n < 0x10000 then
    [0xE0 + n / 0x1000, 0x80 + (n / 0x40) % 0x40, 0x80 + n % 0x40]
  else
    [0xF0 + n / 0x40000, 0x80 + (n / 0x1000) % 0x40, 0x80 + (n / 0x40) % 0x40, 0x80 + n % 0x40]

/-- Uppercase hexadecimal digit, as urllib emits. -/
def hexDigit (n : Nat) : Char :=
  if n < 10 then Char.ofNat (48 + n) else Char.ofNat (55 + n)

/-- Percent escape of one byte. -/
def pctByte (b : Nat) : List Char := ['%', hexDigit (b / 16), hexDigit (b % 16)]

/-- Characters `urllib.parse.quote` leaves intact with its default
`safe='/'`: ASCII alphanumerics, `_.-~` and `/`. -/
def quoteUnreserved (c : Char) : Bool :=
  c.isAlpha || c.isDigit || c == '_' || c == '.' || c == '-' || c == '~' || c == '/'

/-- Concatenation of `f` over the characters of a string. -/
def expandEach (f : Char → List Char) : List Char → List Char
  | [] => []
  | c :: rest => f c ++ expandEach f rest

/-- Concatenation of a list of strings. -/
def joinAll : List (List Char) → List Char
  | [] => []
  | x :: xs => x ++ joinAll xs

/-- Percent encoding of one character: kept if unreserved, otherwise each
UTF-8 byte is escaped. -/
def quoteChar (c : Char) : List Char :=
  if quoteUnreserved c then [c] else joinAll ((utf8Bytes c).map pctByte)

/-- Python `urllib.parse.quote(s)` with the default `safe='/'`. -/
def pyQuote (s : List Char) : List Char := expandEach quoteChar s

/-- Translation of create_outlook_web_link (app.py lines 69-93): the params
dict in insertion order, empty optional fields omitted, pairs joined with
`&`.  Note the body is only newline-escaped, not percent-encoded. -/
def create_outlook_web_link (subject body toAddr cc bcc : List Char) : List Char :=
  let bodyEncoded := pyReplace body ['\n'] "%0D%0A".toList
  let params : List (List Char × List Char) :=
    [("subject".toList, pyQuote subject), ("body".toList, bodyEncoded)]
    ++ (if toAddr = [] then [] else [("to".toList, pyQuote toAddr)])
    ++ (if cc = [] then [] else [("cc".toList, pyQuote cc)])
    ++ (if bcc = [] then [] else [("bcc".toList, pyQuote bcc)])
  "https://outlook.office.com/mail/deeplink/compose?".toList
    ++ pyJoin ['&'] (params.map (fun kv => kv.1 ++ '=' :: kv.2))

/-- Naive local datetime, enough for `strftime('%Y-%m-%dT%H:%M:%S')`. -/
structure PyDateTime where
  year : Nat
  month : Nat
  day : Nat
  hour : Nat
  minute : Nat
  second : Nat

/-- Decimal digit character. -/
def digitChar (n : Nat) : Char := Char.ofNat (48 + n % 10)

/-- Two-digit zero-padded decimal field. -/
def pad2 (n : Nat) : List Char := [digitChar (n / 10), digitChar n]

/-- Four-digit zero-padded decimal field (`%Y`; datetime years are 1-9999). -/
def pad4 (n : Nat) : List Char :=
  [digitChar (n / 1000), digitChar (n / 100), digitChar (n / 10), digitChar n]

/-- Python `dt.strftime('%Y-%m-%dT%H:%M:%S')`. -/
def strftimeISO (d : PyDateTime) : List Char :=
  pad4 d.year ++ '-' :: pad2 d.month ++ '-' :: pad2 d.day
    ++ 'T' :: pad2 d.hour ++ ':' :: pad2 d.minute ++ ':' :: pad2 d.second

/-- The HTML body built by create_calendar_meeting_link (app.py lines
101-103): double newlines become paragraph breaks, single newlines `<br>`,
and the result is wrapped in one paragraph. -/
def htmlBody (body : List Char) : List Char :=
  "<p>".toList
    ++ pyReplace (pyReplace body "\n\n".toList "</p><p>".toList) ['\n'] "<br>".toList
    ++ "</p>".toList

/-- Translation of create_calendar_meeting_link (app.py lines 95-125).
Note the `path` value is the raw string `/calendar/action/compose`, placed
into the query without percent-encoding. -/
def create_calendar_meeting_link (subject body attendees : List Char)
    (start_time end_time : PyDateTime) (location : List Char) : List Char :=
  let params : List (List Char × List Char) :=
    [("subject".toList, pyQuote subject),
     ("body".toList, pyQuote (htmlBody body)),
     ("startdt".toList, pyQuote (strftimeISO start_time)),
     ("enddt".toList, pyQuote (strftimeISO end_time)),
     ("path".toList, "/calendar/action/compose".toList)]
    ++ (if attendees = [] then [] else [("to".toList, pyQuote attendees)])
    ++ (if location = [] then [] else [("location".toList, pyQuote location)])
  "https://outlook.office.com/calendar/0/deeplink/compose?".toList
    ++ pyJoin ['&'] (params.map (fun kv => kv.1 ++ '=' :: kv.2))

/-! Spec-side definitions, written from the words of the claims so they can
be compared with the translations above. -/

/-- Body encoding as claim C1 words it: percent-encoded, with each newline
rendered as the escape sequence `%0D%0A`. -/
def bodyEncClaim (body : List Char) : List Char :=
  expandEach (fun c => if c = '\n' then "%0D%0A".toList else quoteChar c) body

/-- Body encoding as the code actually performs it: characters pass through
verbatim except each newline becomes the literal sequence `%0D%0A`. -/
def bodyEncAmended (body : List Char) : List Char :=
  expandEach (fun c => if c = '\n' then "%0D%0A".toList else [c]) body

/-- The mail deep link exactly as claim C1 describes it. -/
def mailLinkClaim (subject body toAddr cc bcc : List Char) : List Char :=
  "https://outlook.office.com/mail/deeplink/compose?".toList
  ++ "subject=".toList ++ pyQuote subject
  ++ "&body=".toList ++ bodyEncClaim body
  ++ (if toAddr = [] then [] else "&to=".toList ++ pyQuote toAddr)
  ++ (if cc = [] then [] else "&cc=".toList ++ pyQuote cc)
  ++ (if bcc = [] then [] else "&bcc=".toList ++ pyQuote bcc)

/-- The mail deep link with the body encoding amended to what the code
does (no percent-encoding of the body, newlines to `%0D%0A`). -/
def mailLinkAmended (subject body toAddr cc bcc : List Char) : List Char :=
  "https://outlook.office.com/mail/deeplink/compose?".toList
  ++ "subject=".toList ++ pyQuote subject
  ++ "&body=".toList ++ bodyEncAmended body
  ++ (if toAddr = [] then [] else "&to=".toList ++ pyQuote toAddr)
  ++ (if cc = [] then [] else "&cc=".toList ++ pyQuote cc)
  ++ (if bcc = [] then [] else "&bcc=".toList ++ pyQuote bcc)

/-- The calendar deep link exactly as claim C2 describes it, with the `path`
parameter's value the percent-encoded string. -/
def calendarLinkClaim (subject body attendees : List Char)
    (start_time end_time : PyDateTime) (location : List Char) : List Char :=
  "https://outlook.office.com/calendar/0/deeplink/compose?".toList
  ++ "subject=".toList ++ pyQuote subject
  ++ "&body=".toList ++ pyQuote (htmlBody body)
  ++ "&startdt=".toList ++ pyQuote (strftimeISO start_time)
  ++ "&enddt=".toList ++ pyQuote (strftimeISO end_time)
  ++ "&path=".toList ++ "%2Fcalendar%2Faction%2Fcompose".toList
  ++ (if attendees = [] then [] else "&to=".toList ++ pyQuote attendees)
  ++ (if location = [] then [] else "&location=".toList ++ pyQuote location)

/-- The calendar deep link with the `path` value amended to the raw string
the code actually emits. -/
def calendarLinkAmended (subject body attendees : List Char)
    (start_time end_time : PyDateTime) (location : List Char) : List Char :=
  "https://outlook.office.com/calendar/0/deeplink/compose?".toList
  ++ "subject=".toList ++ pyQuote subject
  ++ "&body=".toList ++ pyQuote (htmlBody body)
  ++ "&startdt=".toList ++ pyQuote (strftimeISO start_time)
  ++ "&enddt=".toList ++ pyQuote (strftimeISO end_time)
  ++ "&path=".toList ++ "/calendar/action/compose".toList
  ++ (if attendees = [] then [] else "&to=".toList ++ pyQuote attendees)
  ++ (if location = [] then [] else "&location=".toList ++ pyQuote location)

/-- Spec-side description of the subject the code produces: the subject of
the last marker line, or empty when no line carries the marker. -/
def specSubjectLast (content : List Char) : List Char :=
  match ((splitOnNl content).filter (fun l => isSubjectLine l)).getLast? with
  | some l => subjectOf l
  | none => []

/-- Spec-side description of the body the code produces: every non-marker
line in order, joined with newlines and stripped. -/
def specBodyRest (content : List Char) : List Char :=
  pyStrip (pyJoin ['\n'] ((splitOnNl content).filter (fun l => !(isSubjectLine l))))

/-- First-occurrence deduplication, stated independently of the seen-set
loop: keep the head, delete its later duplicates, recurse. -/
def specDedup : List (List Char) → List (List Char)
  | [] => []
  | x :: xs => x :: specDedup (xs.filter (fun y => !decide (y = x)))
termination_by l => l.length
decreasing_by
  simp only [List.length_cons]
  exact Nat.lt_succ_of_le (List.length_filter_le _ _)

/-- Well-formed template text, segment by segment: literal runs free of
braces, and placeholder tokens with brace-free nonempty names. -/
inductive Seg where
  | lit (s : List Char)
  | tok (name : List Char)
deriving DecidableEq

/-- Character string containing neither brace. -/
def noBrace (s : List Char) : Bool :=
  s.all (fun c => !(c == '{') && !(c == '}'))

/-- Well-formedness of a segment list. -/
def wfSegs (segs : List Seg) : Bool :=
  segs.all (fun seg =>
    match seg with
    | .lit s => noBrace s
    | .tok p => noBrace p && !p.isEmpty)

/-- The text of a segment list: tokens render as braced names. -/
def render : List Seg → List Char
  | [] => []
  | .lit s :: rest => s ++ render rest
  | .tok p :: rest => '{' :: (p ++ '}' :: render rest)

/-- Names of the tokens, in order. -/
def tokenNames : List Seg → List (List Char)
  | [] => []
  | .lit _ :: rest => tokenNames rest
  | .tok p :: rest => p :: tokenNames rest

/-- First-match association-list lookup. -/
def lookupA (p : List Char) : List (List Char × List Char) → Option (List Char)
  | [] => none
  | kv :: rest => if p = kv.1 then some kv.2 else lookupA p rest

/-- Replace every token named `k` by the literal `w`. -/
def segsReplace (k w : List Char) (segs : List Seg) : List Seg :=
  segs.map (fun seg =>
    match seg with
    | .lit s => .lit s
    | .tok p => if p = k then .lit w else .tok p)

/-- Apply a whole mapping to a segment list: mapped tokens become their
values, unmapped tokens stay. -/
def applySubst (v : List (List Char × List Char)) (segs : List Seg) : List Seg :=
  segs.map (fun seg =>
    match seg with
    | .lit s => .lit s
    | .tok p =>
      match lookupA p v with
      | some w => .lit w
      | none => .tok p)

/-- Mapping whose keys and values are all brace-free. -/
def kvsOk (v : List (List Char × List Char)) : Bool :=
  v.all (fun kv => noBrace kv.1 && noBrace kv.2)

/-! Helper lemmas about pyReplace. -/

lemma pyReplaceAux_nil (fuel : Nat) (pat rep : List Char) (h : pat ≠ []) :
    pyReplaceAux fuel [] pat rep = [] := by
  cases fuel with
  | zero => rfl
  | succ n =>
    have hpre : ¬ (pat.isPrefixOf ([] : List Char) ∧ pat ≠ []) := by
      rintro ⟨h1, -⟩
      cases pat with
      | nil => exact h rfl
      | cons c cs => simp [List.isPrefixOf] at h1
    simp [pyReplaceAux, hpre]

lemma pyReplaceAux_single (a : Char) (rep : List Char) :
    ∀ fuel s, s.length ≤ fuel →
      pyReplaceAux fuel s [a] rep
        = expandEach (fun c => if c = a then rep else [c]) s := by
  intro fuel
  induction fuel with
  | zero =>
    intro s hs
    have : s = [] := List.eq_nil_of_length_eq_zero (Nat.le_zero.mp hs)
    subst this
    rfl
  | succ n ih =>
    intro s hs
    cases s with
    | nil =>
      rw [pyReplaceAux_nil _ _ _ (by simp)]
      rfl
    | cons c rest =>
      by_cases hca : c = a
      · subst hca
        have hcond : ([c] : List Char).isPrefixOf (c :: rest) ∧ ([c] : List Char) ≠ [] := by
          simp [List.isPrefixOf]
        simp only [pyReplaceAux, if_pos hcond, List.length_cons, List.length_nil,
          List.drop_succ_cons, List.drop_zero, expandEach, eq_self_iff_true, ite_true]
        rw [ih rest (Nat.le_of_succ_le_succ hs)]
      · have hcond : ¬ (([a] : List Char).isPrefixOf (c :: rest) ∧ ([a] : List Char) ≠ []) := by
          rintro ⟨h1, -⟩
          simp [List.isPrefixOf] at h1
          exact hca h1.symm
        simp only [pyReplaceAux, if_neg hcond, expandEach, if_neg hca]
        rw [ih rest (Nat.le_of_succ_le_succ hs)]
        rfl

lemma pyReplace_single (a : Char) (rep s : List Char) :
    pyReplace s [a] rep = expandEach (fun c => if c = a then rep else [c]) s :=
  pyReplaceAux_single a rep s.length s le_rfl

/-! Literal decompositions of the query fragments, used to line the code's
joined pairs up with the spec's concatenated fragments. -/

lemma splitLitSubject : "subject=".toList = "subject".toList ++ ['='] := rfl

lemma splitLitBody : "&body=".toList = '&' :: ("body".toList ++ ['=']) := rfl

lemma splitLitTo : "&to=".toList = '&' :: ("to".toList ++ ['=']) := rfl

lemma splitLitCc : "&cc=".toList = '&' :: ("cc".toList ++ ['=']) := rfl

lemma splitLitBcc : "&bcc=".toList = '&' :: ("bcc".toList ++ ['=']) := rfl

lemma splitLitStartdt : "&startdt=".toList = '&' :: ("startdt".toList ++ ['=']) := rfl

lemma splitLitEnddt : "&enddt=".toList = '&' :: ("enddt".toList ++ ['=']) := rfl

lemma splitLitPath : "&path=".toList = '&' :: ("path".toList ++ ['=']) := rfl

lemma splitLitLocation : "&location=".toList = '&' :: ("location".toList ++ ['=']) := rfl

/-! Claims C1 and C2: the deep-link encoders. -/

/-- Claim C1, as stated, is false: with subject "s" and body a single
space, the code leaves the body character unencoded while the claimed link
percent-encodes it. -/
theorem c1_counterexample :
    create_outlook_web_link "s".toList " ".toList [] [] []
      ≠ mailLinkClaim "s".toList " ".toList [] [] [] := by
  decide

/-- Claim C1 (amended): create_outlook_web_link returns the fixed base
followed by key=value pairs joined with ampersands in the order subject,
body, to, cc, bcc, empty optional fields omitted; subject, to, cc, bcc are
percent-encoded, while the body is included verbatim except that each
newline becomes the literal sequence `%0D%0A` (the body is not otherwise
percent-encoded). -/
theorem c1_amended_mail_link (subject body toAddr cc bcc : List Char) :
    create_outlook_web_link subject body toAddr cc bcc
      = mailLinkAmended subject body toAddr cc bcc := by
  have hb : pyReplace body ['\n'] "%0D%0A".toList = bodyEncAmended body :=
    pyReplace_single '\n' _ body
  by_cases h1 : toAddr = [] <;> by_cases h2 : cc = [] <;> by_cases h3 : bcc = [] <;>
    simp [create_outlook_web_link, mailLinkAmended, hb, h1, h2, h3, pyJoin,
      splitLitSubject, splitLitBody, splitLitTo, splitLitCc, splitLitBcc,
      List.append_assoc] <;>
    exact hb

/-- Claim C2, as stated, is false: the code places the raw string
`/calendar/action/compose` as the path value, not its percent-encoding. -/
theorem c2_counterexample :
    create_calendar_meeting_link "m".toList [] [] ⟨2025, 1, 2, 3, 4, 5⟩
        ⟨2025, 1, 2, 4, 4, 5⟩ []
      ≠ calendarLinkClaim "m".toList [] [] ⟨2025, 1, 2, 3, 4, 5⟩
        ⟨2025, 1, 2, 4, 4, 5⟩ [] := by
  decide

/-- Claim C2 (amended): create_calendar_meeting_link returns the fixed base
followed by query parameters in the order subject, body, startdt, enddt,
path, then to (if attendees nonempty) and location (if nonempty), with
startdt/enddt percent-encoded local ISO-8601 timestamps; the path
parameter's value is the raw string `/calendar/action/compose` (the slashes
are not percent-encoded). -/
theorem c2_amended_calendar_link (subject body attendees : List Char)
    (start_time end_time : PyDateTime) (location : List Char) :
    create_calendar_meeting_link subject body attendees start_time end_time location
      = calendarLinkAmended subject body attendees start_time end_time location := by
  by_cases h1 : attendees = [] <;> by_cases h2 : location = [] <;>
    simp [create_calendar_meeting_link, calendarLinkAmended, h1, h2, pyJoin,
      splitLitSubject, splitLitBody, splitLitStartdt, splitLitEnddt, splitLitPath,
      splitLitTo, splitLitLocation, List.append_assoc]

/-! Characterisation of the extract_subject_and_body fold. -/

lemma esbStep_marker (acc : List Char × Bool × List (List Char)) (line : List Char)
    (h : isSubjectLine line = true) :
    esbStep acc line = (subjectOf line, true, acc.2.2) := by
  simp [esbStep, h]

lemma esbStep_other (acc : List Char × Bool × List (List Char)) (line : List Char)
    (h : ¬ isSubjectLine line = true) :
    esbStep acc line = (acc.1, acc.2.1, acc.2.2 ++ [line]) := by
  simp [esbStep, h]

lemma esbFold (lines : List (List Char)) :
    ∀ (s : List Char) (f : Bool) (b : List (List Char)),
      lines.foldl esbStep (s, f, b)
      = (lines.foldl (fun s line => if isSubjectLine line then subjectOf line else s) s,
         f || lines.any (fun l => isSubjectLine l),
         b ++ lines.filter (fun l => !(isSubjectLine l))) := by
  induction lines with
  | nil => intro s f b; simp
  | cons line rest ih =>
    intro s f b
    rw [List.foldl_cons]
    by_cases h : isSubjectLine line = true
    · rw [esbStep_marker _ _ h, ih]
      simp [h, List.filter_cons]
    · rw [esbStep_other _ _ h, ih]
      simp [h, List.filter_cons]

lemma subjFold_getLast (lines : List (List Char)) :
    ∀ s, lines.foldl (fun s line => if isSubjectLine line then subjectOf line else s) s
      = (match (lines.filter (fun l => isSubjectLine l)).getLast? with
         | some l => subjectOf l
         | none => s) := by
  induction lines with
  | nil => intro s; simp
  | cons line rest ih =>
    intro s
    by_cases h : isSubjectLine line = true
    · simp only [List.foldl_cons, h, ite_true]
      rw [ih]
      cases hf : rest.filter (fun l => isSubjectLine l) with
      | nil => simp [List.filter_cons, h, hf]
      | cons a as =>
        simp only [List.filter_cons, h, ite_true, hf, List.getLast?_cons_cons]
        cases hg : (a :: as).getLast? with
        | none => simp at hg
        | some l => rfl
    · simp only [List.foldl_cons, h, ite_false]
      rw [ih]
      simp [List.filter_cons, h]

/-- The pair produced by extract_subject_and_body, in closed form: subject
of the last marker line (empty when none), and the non-marker lines joined
and stripped. -/
lemma esb_eq (t : List Char) :
    extract_subject_and_body t = (specSubjectLast t, specBodyRest t) := by
  simp only [extract_subject_and_body, specSubjectLast, specBodyRest]
  rw [esbFold, subjFold_getLast]
  cases h : ((splitOnNl t).filter fun l => isSubjectLine l).getLast? <;> simp [h]

/-- Claim C3, as stated, is false: on "subject: A\nx\nsubject: B" the code
returns subject "B" (the last marker line wins) and body "x" (the later
marker line is also excluded from the body), not the claimed subject "A"
with the later marker line kept in the body. -/
theorem c3_counterexample :
    extract_subject_and_body "subject: A\nx\nsubject: B".toList
        = ("B".toList, "x".toList)
      ∧ (("B".toList, "x".toList) : List Char × List Char)
        ≠ ("A".toList, "x\nsubject: B".toList) := by
  exact ⟨by decide, by decide⟩

/-- Claim C3 (amended): extract_subject_and_body sets the subject from the
LAST line whose trimmed, case-folded form starts with "subject:" (taking
the remainder after the first colon, trimmed; empty when no such line
exists), excludes every such marker line from the body, and joins all the
other lines in original order with newlines, stripping surrounding
whitespace from the joined body. -/
theorem c3_amended_subject_body (t : List Char) :
    extract_subject_and_body t = (specSubjectLast t, specBodyRest t) :=
  esb_eq t

/-! Lemmas about the placeholder scanner and the deduplication loop. -/

lemma dedupAux_mem : ∀ (xs seen : List (List Char)) (p : List Char),
    p ∈ dedupAux seen xs ↔ p ∈ xs ∧ p ∉ seen := by
  intro xs
  induction xs with
  | nil => intro seen p; simp [dedupAux]
  | cons x xs ih =>
    intro seen p
    by_cases hx : x ∈ seen
    · rw [dedupAux, if_pos hx, ih]
      constructor
      · rintro ⟨h1, h2⟩; exact ⟨List.mem_cons_of_mem _ h1, h2⟩
      · rintro ⟨h1, h2⟩
        rcases List.mem_cons.mp h1 with rfl | h1
        · exact absurd hx h2
        · exact ⟨h1, h2⟩
    · rw [dedupAux, if_neg hx]
      constructor
      · intro h
        rcases List.mem_cons.mp h with rfl | h
        · exact ⟨List.mem_cons_self _ _, hx⟩
        · rcases (ih _ p).mp h with ⟨h1, h2⟩
          refine ⟨List.mem_cons_of_mem _ h1, fun hs => h2 (List.mem_cons_of_mem _ hs)⟩
      · rintro ⟨h1, h2⟩
        rcases List.mem_cons.mp h1 with rfl | h1
        · exact List.mem_cons_self _ _
        · by_cases hpx : p = x
          · subst hpx; exact List.mem_cons_self _ _
          · exact List.mem_cons_of_mem _ ((ih _ p).mpr
              ⟨h1, fun hs => (List.mem_cons.mp hs).elim hpx h2⟩)

lemma scan_names : ∀ (s : List Char) (buf : Option (List Char)),
    (∀ acc, buf = some acc → ∀ c ∈ acc, c ≠ '}') →
    ∀ p ∈ scanPH s buf, (∀ c ∈ p, c ≠ '}') ∧ p ≠ [] := by
  intro s
  induction s with
  | nil => intro buf hb p hp; simp [scanPH] at hp
  | cons c rest ih =>
    intro buf hb p hp
    cases buf with
    | none =>
      by_cases hc : c = '{'
      · rw [scanPH, if_pos hc] at hp
        exact ih (some []) (by rintro acc ⟨rfl⟩; simp) p hp
      · rw [scanPH, if_neg hc] at hp
        exact ih none (by rintro acc ⟨⟩) p hp
    | some acc =>
      have hacc : ∀ c ∈ acc, c ≠ '}' := hb acc rfl
      by_cases hc : c = '}'
      · rw [scanPH, if_pos hc] at hp
        by_cases hae : acc = []
        · rw [if_pos hae] at hp
          exact ih none (by rintro a ⟨⟩) p hp
        · rw [if_neg hae] at hp
          rcases List.mem_cons.mp hp with rfl | hp
          · exact ⟨hacc, hae⟩
          · exact ih none (by rintro a ⟨⟩) p hp
      · rw [scanPH, if_neg hc] at hp
        refine ih (some (acc ++ [c])) ?_ p hp
        rintro a ⟨rfl⟩ x hx
        rcases List.mem_append.mp hx with hx | hx
        · exact hacc x hx
        · rcases List.mem_singleton.mp hx with rfl
          exact hc

lemma specDedup_nil : specDedup [] = [] := by
  rw [specDedup.eq_def]

lemma specDedup_cons (x : List Char) (xs : List (List Char)) :
    specDedup (x :: xs) = x :: specDedup (xs.filter (fun y => !decide (y = x))) := by
  rw [specDedup.eq_def]

lemma dedupAux_eq_specDedup : ∀ (xs seen : List (List Char)),
    dedupAux seen xs = specDedup (xs.filter (fun y => !decide (y ∈ seen))) := by
  intro xs
  induction xs with
  | nil => intro seen; rw [List.filter_nil, specDedup_nil]; rfl
  | cons x xs ih =>
    intro seen
    by_cases hx : x ∈ seen
    · have hstep : (x :: xs).filter (fun y => !decide (y ∈ seen))
          = xs.filter (fun y => !decide (y ∈ seen)) := by simp [hx]
      rw [dedupAux, if_pos hx, hstep]
      exact ih seen
    · have hstep : (x :: xs).filter (fun y => !decide (y ∈ seen))
          = x :: xs.filter (fun y => !decide (y ∈ seen)) := by simp [hx]
      have hcong : xs.filter (fun y => !decide (y = x) && !decide (y ∈ seen))
          = xs.filter (fun y => !decide (y ∈ x :: seen)) := by
        apply List.filter_congr
        intro y _
        by_cases h1 : y = x <;> by_cases h2 : y ∈ seen <;> simp [h1, h2]
      rw [dedupAux, if_neg hx, hstep, specDedup_cons, List.filter_filter, hcong,
        ih (x :: seen)]

lemma specDedup_subset : ∀ (l : List (List Char)), ∀ p ∈ specDedup l, p ∈ l := by
  intro l
  induction l using specDedup.induct with
  | case1 => intro p hp; simp [specDedup] at hp
  | case2 x xs ih =>
    intro p hp
    rw [specDedup_cons] at hp
    rcases List.mem_cons.mp hp with rfl | hp
    · exact List.mem_cons_self _ _
    · exact List.mem_cons_of_mem _ (List.mem_filter.mp (ih p hp)).1

lemma specDedup_nodup : ∀ (l : List (List Char)), (specDedup l).Nodup := by
  intro l
  induction l using specDedup.induct with
  | case1 => rw [specDedup_nil]; exact List.nodup_nil
  | case2 x xs ih =>
    rw [specDedup_cons]
    refine List.nodup_cons.mpr ⟨fun hx => ?_, ih⟩
    have := (List.mem_filter.mp (specDedup_subset _ _ hx)).2
    simp at this

/-! Claims C6, C9 and C10: shape of the extracted names. -/

/-- Claim C6, as stated, is false: the scanner's name class excludes only
the closing brace, so a name may contain an opening brace. -/
theorem c6_counterexample :
    extract_placeholders "\x7bx\x7by\x7d".toList = ["x\x7by".toList]
      ∧ '{' ∈ "x\x7by".toList := by
  exact ⟨by decide, by decide⟩

/-- Claim C6 (amended): every placeholder name returned by
extract_placeholders contains no closing brace (it may, however, contain an
opening brace). -/
theorem c6_amended_names_no_close_brace (t p : List Char)
    (hp : p ∈ extract_placeholders t) : '}' ∉ p := by
  have hs : p ∈ scanPH t none :=
    ((dedupAux_mem _ _ _).mp hp).1
  intro hc
  exact (scan_names t none (by rintro a ⟨⟩) p hs).1 '}' hc rfl

theorem c6_amended_names_no_close_brace_witness :
    "x\x7by".toList ∈ extract_placeholders "\x7bx\x7by\x7d".toList
      ∧ '}' ∉ "x\x7by".toList :=
  ⟨by decide, c6_amended_names_no_close_brace "\x7bx\x7by\x7d".toList "x\x7by".toList (by decide)⟩

/-- Claim C9: extract_placeholders preserves first-occurrence order and
drops duplicates: it equals the first-occurrence deduplication of the raw
match list, its output has no repeated names, and on the spec's example it
returns Name then Role. -/
theorem c9_dedup_first_occurrence :
    (∀ t, extract_placeholders t = specDedup (scanPH t none)
        ∧ (extract_placeholders t).Nodup)
    ∧ extract_placeholders "Hi \x7bName\x7d, re \x7bName\x7d and \x7bRole\x7d".toList
        = ["Name".toList, "Role".toList] := by
  have key : ∀ t : List Char, extract_placeholders t = specDedup (scanPH t none) := by
    intro t
    rw [extract_placeholders, dedupAux_eq_specDedup]
    congr 1
    simp
  refine ⟨fun t => ⟨key t, ?_⟩, by decide⟩
  rw [key t]
  exact specDedup_nodup _

/-- Claim C10: every placeholder name returned by extract_placeholders is
nonempty, since the scanner requires at least one non-brace character
between the braces; in particular a literal `\x7b\x7d` contributes
nothing. -/
theorem c10_nonempty_names (t p : List Char)
    (hp : p ∈ extract_placeholders t) : p ≠ [] := by
  have hs : p ∈ scanPH t none :=
    ((dedupAux_mem _ _ _).mp hp).1
  exact (scan_names t none (by rintro a ⟨⟩) p hs).2

theorem c10_nonempty_names_witness :
    "a".toList ∈ extract_placeholders "x\x7b\x7dy\x7ba\x7d".toList
      ∧ "a".toList ≠ [] :=
  ⟨by decide, c10_nonempty_names "x\x7b\x7dy\x7ba\x7d".toList "a".toList (by decide)⟩

/-! Replacement over well-formed template text. -/

lemma noBrace_mem {s : List Char} (h : noBrace s = true) :
    ∀ c ∈ s, c ≠ '{' ∧ c ≠ '}' := by
  intro c hc
  have := List.all_eq_true.mp h c hc
  constructor <;> intro heq <;> subst heq <;> simp at this

lemma wf_lit {s : List Char} {segs : List Seg}
    (h : wfSegs (Seg.lit s :: segs) = true) :
    noBrace s = true ∧ wfSegs segs = true := by
  simpa [wfSegs] using h

lemma wf_tok {p : List Char} {segs : List Seg}
    (h : wfSegs (Seg.tok p :: segs) = true) :
    (noBrace p = true ∧ p ≠ []) ∧ wfSegs segs = true := by
  simpa [wfSegs] using h

lemma kvs_cons {kv : List Char × List Char} {v : List (List Char × List Char)}
    (h : kvsOk (kv :: v) = true) :
    (noBrace kv.1 = true ∧ noBrace kv.2 = true) ∧ kvsOk v = true := by
  simpa [kvsOk] using h

/-- The braced pattern never matches with its full closing brace inside a
brace-free name tail: the prefix test fails whenever the names differ. -/
lemma pat_no_match : ∀ (k p r : List Char), (∀ c ∈ k, c ≠ '}') →
    (∀ c ∈ p, c ≠ '}') → k ≠ p →
    ¬ ((k ++ ['}']).isPrefixOf (p ++ '}' :: r) = true) := by
  intro k
  induction k with
  | nil =>
    intro p r _ hp hne h
    cases p with
    | nil => exact hne rfl
    | cons b p' =>
      simp only [List.nil_append, List.cons_append, List.isPrefixOf,
        Bool.and_eq_true, beq_iff_eq] at h
      exact hp b (List.mem_cons_self _ _) h.1.symm
  | cons a k' ih =>
    intro p r hk hp hne h
    cases p with
    | nil =>
      simp only [List.cons_append, List.nil_append, List.isPrefixOf,
        Bool.and_eq_true, beq_iff_eq] at h
      exact hk a (List.mem_cons_self _ _) h.1
    | cons b p' =>
      simp only [List.cons_append, List.isPrefixOf, Bool.and_eq_true,
        beq_iff_eq] at h
      obtain ⟨rfl, h2⟩ := h
      refine ih p' r (fun c hc => hk c (List.mem_cons_of_mem _ hc))
        (fun c hc => hp c (List.mem_cons_of_mem _ hc))
        (fun he => hne (by rw [he])) ?_
      simpa [List.cons_append] using h2

/-- pyReplaceAux walks over a run of characters containing no opening
brace without touching it, when the pattern starts with an opening brace. -/
lemma pyReplaceAux_skip (pt rep : List Char) :
    ∀ (l : List Char), (∀ c ∈ l, c ≠ '{') → ∀ (s : List Char) (fuel : Nat),
      pyReplaceAux (l.length + fuel) (l ++ s) ('{' :: pt) rep
        = l ++ pyReplaceAux fuel s ('{' :: pt) rep := by
  intro l
  induction l with
  | nil => intro _ s fuel; simp
  | cons c l' ih =>
    intro hl s fuel
    have hc : c ≠ '{' := hl c (List.mem_cons_self _ _)
    have hcond : ¬ (('{' :: pt).isPrefixOf (c :: (l' ++ s)) ∧ ('{' :: pt) ≠ []) := by
      rintro ⟨h1, -⟩
      simp only [List.isPrefixOf, Bool.and_eq_true, beq_iff_eq] at h1
      exact hc h1.1.symm
    have harith : (c :: l').length + fuel = (l'.length + fuel) + 1 := by
      simp [List.length_cons]; omega
    rw [List.cons_append, harith, pyReplaceAux_succ, if_neg hcond]
    show c :: pyReplaceAux (l'.length + fuel) (l' ++ s) ('{' :: pt) rep
      = c :: l' ++ pyReplaceAux fuel s ('{' :: pt) rep
    rw [ih (fun x hx => hl x (List.mem_cons_of_mem _ hx)) s fuel]
    rfl

/-- Replacing the braced pattern of a brace-free name in rendered
well-formed text replaces exactly the tokens carrying that name. -/
lemma pyReplaceAux_render (k w : List Char) (hk : noBrace k = true) :
    ∀ (segs : List Seg) (fuel : Nat), wfSegs segs = true →
      (render segs).length ≤ fuel →
      pyReplaceAux fuel (render segs) ('{' :: (k ++ ['}'])) w
        = render (segsReplace k w segs) := by
  intro segs
  induction segs with
  | nil =>
    intro fuel _ _
    exact pyReplaceAux_nil fuel _ w (by simp)
  | cons seg rest ih =>
    intro fuel hwf hlen
    cases seg with
    | lit l =>
      obtain ⟨hl, hwr⟩ := wf_lit hwf
      have hren : render (Seg.lit l :: rest) = l ++ render rest := rfl
      rw [hren] at hlen
      obtain ⟨fuel', rfl⟩ : ∃ f', fuel = l.length + f' := by
        refine ⟨fuel - l.length, ?_⟩
        have := List.length_append l (render rest)
        omega
      rw [hren, pyReplaceAux_skip _ _ l (fun c hc => (noBrace_mem hl c hc).1) _ _]
      rw [ih fuel' hwr (by have := List.length_append l (render rest); omega)]
      rfl
    | tok p =>
      obtain ⟨⟨hp, hpne⟩, hwr⟩ := wf_tok hwf
      have hren : render (Seg.tok p :: rest)
          = '{' :: (p ++ '}' :: render rest) := rfl
      have hlen' : (render (Seg.tok p :: rest)).length
          = p.length + 2 + (render rest).length := by
        rw [hren]; simp; omega
      cases fuel with
      | zero => exact absurd hlen (by rw [hlen']; omega)
      | succ fuel' =>
        by_cases hpk : p = k
        · subst hpk
          have hsplit : render (Seg.tok p :: rest)
              = ('{' :: (p ++ ['}'])) ++ render rest := by
            rw [hren]; simp
          have hcond : ('{' :: (p ++ ['}'])).isPrefixOf (render (Seg.tok p :: rest)) = true
              ∧ ('{' :: (p ++ ['}'])) ≠ [] := by
            refine ⟨?_, by simp⟩
            rw [hsplit, List.isPrefixOf_iff_prefix]
            exact List.prefix_append _ _
          rw [pyReplaceAux_succ, if_pos hcond]
          have hdrop : (render (Seg.tok p :: rest)).drop ('{' :: (p ++ ['}'])).length
              = render rest := by
            rw [hsplit, List.drop_left]
          rw [hdrop, ih fuel' hwr (by rw [hlen'] at hlen; omega)]
          have hrepl : segsReplace p w (Seg.tok p :: rest)
              = Seg.lit w :: segsReplace p w rest := by
            simp [segsReplace]
          rw [hrepl]
          rfl
        · have hcond : ¬ (('{' :: (k ++ ['}'])).isPrefixOf (render (Seg.tok p :: rest)) = true
              ∧ ('{' :: (k ++ ['}'])) ≠ []) := by
            rintro ⟨h1, -⟩
            rw [hren] at h1
            simp only [List.isPrefixOf, Bool.and_eq_true, beq_iff_eq] at h1
            exact pat_no_match k p (render rest)
              (fun c hc => (noBrace_mem hk c hc).2)
              (fun c hc => (noBrace_mem hp c hc).2)
              (fun he => hpk he.symm) h1.2
          rw [pyReplaceAux_succ, if_neg hcond, hren]
          obtain ⟨fuel'', rfl⟩ : ∃ f, fuel' = (p ++ ['}']).length + f := by
            refine ⟨fuel' - (p.length + 1), ?_⟩
            rw [hlen'] at hlen
            simp
            omega
          have hsplit2 : p ++ '}' :: render rest = (p ++ ['}']) ++ render rest := by
            simp
          rw [hsplit2]
          show '{' :: pyReplaceAux ((p ++ ['}']).length + fuel'')
              ((p ++ ['}']) ++ render rest) ('{' :: (k ++ ['}'])) w
            = render (segsReplace k w (Seg.tok p :: rest))
          rw [pyReplaceAux_skip _ _ (p ++ ['}'])
            (by
              intro c hc
              rcases List.mem_append.mp hc with hc | hc
              · exact (noBrace_mem hp c hc).1
              · rcases List.mem_singleton.mp hc with rfl
                decide) _ _]
          rw [ih fuel'' hwr (by
            rw [hlen'] at hlen
            simp only [List.length_append, List.length_cons, List.length_nil] at hlen
            omega)]
          have hrepl : segsReplace k w (Seg.tok p :: rest)
              = Seg.tok p :: segsReplace k w rest := by
            simp [segsReplace, hpk]
          rw [hrepl]
          simp [render]

lemma applySubst_nil : ∀ segs : List Seg, applySubst [] segs = segs := by
  intro segs
  rw [applySubst]
  apply List.map_id''
  intro seg
  cases seg with
  | lit l => rfl
  | tok p => rfl

lemma lookupA_mem : ∀ (v : List (List Char × List Char)) (p w : List Char),
    lookupA p v = some w → (p, w) ∈ v := by
  intro v
  induction v with
  | nil => intro p w h; simp [lookupA] at h
  | cons kv rest ih =>
    intro p w h
    rw [lookupA] at h
    by_cases hp : p = kv.1
    · rw [if_pos hp] at h
      obtain rfl := Option.some_injective _ h
      subst hp
      rw [Prod.mk.eta]
      exact List.mem_cons_self _ _
    · rw [if_neg hp] at h
      exact List.mem_cons_of_mem _ (ih p w h)

lemma mem_fst_lookupA : ∀ (v : List (List Char × List Char)) (p : List Char),
    p ∈ v.map Prod.fst → ∃ w, lookupA p v = some w := by
  intro v
  induction v with
  | nil => intro p h; simp at h
  | cons kv rest ih =>
    intro p h
    by_cases hp : p = kv.1
    · exact ⟨kv.2, by rw [lookupA, if_pos hp]⟩
    · rcases List.mem_cons.mp h with h | h
      · exact absurd h hp
      · obtain ⟨w, hw⟩ := ih p h
        exact ⟨w, by rw [lookupA, if_neg hp, hw]⟩

lemma kvsOk_lookup {v : List (List Char × List Char)} (hkv : kvsOk v = true)
    {p w : List Char} (h : lookupA p v = some w) : noBrace w = true := by
  have hm := lookupA_mem v p w h
  have hall := List.all_eq_true.mp hkv _ hm
  simp only [Bool.and_eq_true] at hall
  exact hall.2

lemma wf_segsReplace {segs : List Seg} {k w : List Char}
    (hwf : wfSegs segs = true) (hw : noBrace w = true) :
    wfSegs (segsReplace k w segs) = true := by
  rw [wfSegs]
  apply List.all_eq_true.mpr
  intro x hx
  rw [segsReplace] at hx
  obtain ⟨seg, hseg, rfl⟩ := List.mem_map.mp hx
  have hseg' := List.all_eq_true.mp hwf seg hseg
  cases seg with
  | lit l => exact hseg'
  | tok p =>
    by_cases hpk : p = k
    · simp [hpk, hw]
    · simpa [hpk] using hseg'

lemma applySubst_replace (k w : List Char) (rest : List (List Char × List Char)) :
    ∀ segs : List Seg,
      applySubst rest (segsReplace k w segs) = applySubst ((k, w) :: rest) segs := by
  intro segs
  rw [applySubst, segsReplace, applySubst, List.map_map]
  apply List.map_congr_left
  intro seg _
  cases seg with
  | lit l => rfl
  | tok p =>
    by_cases hpk : p = k
    · subst hpk
      simp [lookupA, Function.comp]
    · simp [lookupA, hpk, Function.comp]

/-- Sequential replacement of every mapping entry over rendered well-formed
text is the rendering of the per-token substitution. -/
lemma replace_render : ∀ (v : List (List Char × List Char)) (segs : List Seg),
    wfSegs segs = true → kvsOk v = true →
    replace_placeholders (render segs) v = render (applySubst v segs) := by
  intro v
  induction v with
  | nil =>
    intro segs _ _
    rw [applySubst_nil]
    rfl
  | cons kv rest ih =>
    intro segs hwf hkv
    obtain ⟨⟨hk, hw⟩, hrest⟩ := kvs_cons hkv
    have h1 : pyReplace (render segs) ('{' :: (kv.1 ++ ['}'])) kv.2
        = render (segsReplace kv.1 kv.2 segs) :=
      pyReplaceAux_render kv.1 kv.2 hk segs (render segs).length hwf le_rfl
    have h2 := ih (segsReplace kv.1 kv.2 segs) (wf_segsReplace hwf hw) hrest
    calc replace_placeholders (render segs) (kv :: rest)
        = replace_placeholders (pyReplace (render segs) ('{' :: (kv.1 ++ ['}'])) kv.2) rest := rfl
      _ = replace_placeholders (render (segsReplace kv.1 kv.2 segs)) rest := by rw [h1]
      _ = render (applySubst rest (segsReplace kv.1 kv.2 segs)) := h2
      _ = render (applySubst (kv :: rest) segs) := by
            rw [applySubst_replace kv.1 kv.2 rest segs]

lemma wf_applySubst {segs : List Seg} {v : List (List Char × List Char)}
    (hwf : wfSegs segs = true) (hkv : kvsOk v = true) :
    wfSegs (applySubst v segs) = true := by
  rw [wfSegs]
  apply List.all_eq_true.mpr
  intro x hx
  rw [applySubst] at hx
  obtain ⟨seg, hseg, rfl⟩ := List.mem_map.mp hx
  have hseg' := List.all_eq_true.mp hwf seg hseg
  cases seg with
  | lit l => exact hseg'
  | tok p =>
    cases hlook : lookupA p v with
    | some w => simpa [hlook] using kvsOk_lookup hkv hlook
    | none => simpa [hlook] using hseg'

lemma applySubst_idem (v : List (List Char × List Char)) :
    ∀ segs : List Seg, applySubst v (applySubst v segs) = applySubst v segs := by
  intro segs
  rw [applySubst, applySubst, List.map_map]
  apply List.map_congr_left
  intro seg _
  cases seg with
  | lit l => rfl
  | tok p =>
    cases hlook : lookupA p v with
    | some w => simp [hlook, Function.comp]
    | none => simp [hlook, Function.comp]

/-! Scanner behaviour on rendered well-formed text. -/

lemma scanPH_skip_lit : ∀ (l : List Char), (∀ c ∈ l, c ≠ '{') →
    ∀ s, scanPH (l ++ s) none = scanPH s none := by
  intro l
  induction l with
  | nil => intro _ s; rfl
  | cons c l' ih =>
    intro hl s
    rw [List.cons_append, scanPH, if_neg (hl c (List.mem_cons_self _ _))]
    exact ih (fun x hx => hl x (List.mem_cons_of_mem _ hx)) s

lemma scanPH_buf : ∀ (p : List Char), (∀ c ∈ p, c ≠ '}') → ∀ (buf s : List Char),
    scanPH (p ++ '}' :: s) (some buf)
      = if buf ++ p = [] then scanPH s none else (buf ++ p) :: scanPH s none := by
  intro p
  induction p with
  | nil =>
    intro _ buf s
    simp only [List.nil_append, List.append_nil]
    rw [scanPH, if_pos rfl]
  | cons c p' ih =>
    intro hp buf s
    rw [List.cons_append, scanPH, if_neg (hp c (List.mem_cons_self _ _))]
    rw [ih (fun x hx => hp x (List.mem_cons_of_mem _ hx)) (buf ++ [c]) s]
    have he : (buf ++ [c]) ++ p' = buf ++ c :: p' := by simp
    rw [he]

lemma scanPH_render : ∀ segs : List Seg, wfSegs segs = true →
    scanPH (render segs) none = tokenNames segs := by
  intro segs
  induction segs with
  | nil => intro _; rfl
  | cons seg rest ih =>
    intro hwf
    cases seg with
    | lit l =>
      obtain ⟨hl, hwr⟩ := wf_lit hwf
      show scanPH (l ++ render rest) none = tokenNames rest
      rw [scanPH_skip_lit l (fun c hc => (noBrace_mem hl c hc).1) (render rest)]
      exact ih hwr
    | tok p =>
      obtain ⟨⟨hp, hpne⟩, hwr⟩ := wf_tok hwf
      show scanPH ('{' :: (p ++ '}' :: render rest)) none = p :: tokenNames rest
      rw [scanPH, if_pos rfl]
      rw [scanPH_buf p (fun c hc => (noBrace_mem hp c hc).2) [] (render rest)]
      simp only [List.nil_append]
      rw [if_neg hpne, ih hwr]

lemma scanPH_no_open : ∀ s : List Char, (∀ c ∈ s, c ≠ '{') → scanPH s none = [] := by
  intro s
  induction s with
  | nil => intro _; rfl
  | cons c rest ih =>
    intro h
    rw [scanPH, if_neg (h c (List.mem_cons_self _ _))]
    exact ih (fun x hx => h x (List.mem_cons_of_mem _ hx))

lemma render_applySubst_no_open (v : List (List Char × List Char))
    (hkv : kvsOk v = true) :
    ∀ segs : List Seg, wfSegs segs = true →
      (∀ p ∈ tokenNames segs, ∃ w, lookupA p v = some w) →
      ∀ c ∈ render (applySubst v segs), c ≠ '{' := by
  intro segs
  induction segs with
  | nil =>
    intro _ _ c hc
    exact absurd hc (List.not_mem_nil c)
  | cons seg rest ih =>
    intro hwf hcov c hc
    cases seg with
    | lit l =>
      obtain ⟨hl, hwr⟩ := wf_lit hwf
      have hc' : c ∈ l ++ render (applySubst v rest) := hc
      rcases List.mem_append.mp hc' with h | h
      · exact (noBrace_mem hl c h).1
      · exact ih hwr (fun q hq => hcov q hq) c h
    | tok p =>
      obtain ⟨⟨hp, hpne⟩, hwr⟩ := wf_tok hwf
      obtain ⟨w, hw⟩ := hcov p (show p ∈ p :: tokenNames rest from List.mem_cons_self _ _)
      have hwb : noBrace w = true := kvsOk_lookup hkv hw
      have hform : applySubst v (Seg.tok p :: rest) = Seg.lit w :: applySubst v rest := by
        simp [applySubst, hw]
      rw [hform] at hc
      have hc' : c ∈ w ++ render (applySubst v rest) := hc
      rcases List.mem_append.mp hc' with h | h
      · exact (noBrace_mem hwb c h).1
      · exact ih hwr (fun q hq => hcov q (List.mem_cons_of_mem _ hq)) c h

/-! Claims C4, C7 and C8: substitution. -/

/-- Claim C8, as stated, is false: a key whose braced token is absent from
the text can still change the output, because an earlier replacement can
manufacture its token.  Here the key c is absent from the text, yet adding
it changes the result. -/
theorem c8_counterexample :
    ¬ ("\x7bc\x7d".toList <:+: "\x7ba\x7d\x7d".toList)
    ∧ replace_placeholders "\x7ba\x7d\x7d".toList
        [("a".toList, "\x7bc".toList), ("c".toList, "Z".toList)]
      ≠ replace_placeholders "\x7ba\x7d\x7d".toList [("a".toList, "\x7bc".toList)] := by
  exact ⟨by decide, by decide⟩

/-- Claim C8 (amended): over template text made of brace-free literal runs
and braced tokens with brace-free names, and a mapping with brace-free keys
and values, replace_placeholders replaces exactly the tokens whose name is
mapped (each by its value) and leaves every other token verbatim; keys
matching no token have no effect. -/
theorem c8_amended_substitution (segs : List Seg) (v : List (List Char × List Char))
    (hwf : wfSegs segs = true) (hkv : kvsOk v = true) :
    replace_placeholders (render segs) v = render (applySubst v segs) :=
  replace_render v segs hwf hkv

theorem c8_amended_substitution_witness :
    wfSegs [Seg.lit "Dear ".toList, Seg.tok "Name".toList, Seg.tok "Role".toList] = true
    ∧ kvsOk [("Name".toList, "Ada".toList)] = true
    ∧ replace_placeholders
        (render [Seg.lit "Dear ".toList, Seg.tok "Name".toList, Seg.tok "Role".toList])
        [("Name".toList, "Ada".toList)]
      = render (applySubst [("Name".toList, "Ada".toList)]
          [Seg.lit "Dear ".toList, Seg.tok "Name".toList, Seg.tok "Role".toList]) :=
  ⟨by decide, by decide, c8_amended_substitution _ _ (by decide) (by decide)⟩

/-- Claim C7, as stated, is false: with the ill-bracketed text
`\x7ba\x7ba\x7d\x7d` and the single mapping a to the empty string (whose
value contains no placeholder token at all), the first pass produces
`\x7ba\x7d`, and a second pass removes it. -/
theorem c7_counterexample :
    (∀ kv ∈ [("a".toList, ([] : List Char))], kv.2 = ([] : List Char))
    ∧ replace_placeholders (replace_placeholders "\x7ba\x7ba\x7d\x7d".toList
        [("a".toList, [])]) [("a".toList, [])]
      ≠ replace_placeholders "\x7ba\x7ba\x7d\x7d".toList [("a".toList, [])] := by
  exact ⟨by decide, by decide⟩

/-- Claim C7 (amended): over template text made of brace-free literal runs
and braced tokens with brace-free names, and a mapping with brace-free keys
and values, replace_placeholders is idempotent. -/
theorem c7_amended_idempotent (segs : List Seg) (v : List (List Char × List Char))
    (hwf : wfSegs segs = true) (hkv : kvsOk v = true) :
    replace_placeholders (replace_placeholders (render segs) v) v
      = replace_placeholders (render segs) v := by
  rw [replace_render v segs hwf hkv,
    replace_render v (applySubst v segs) (wf_applySubst hwf hkv) hkv,
    applySubst_idem]

theorem c7_amended_idempotent_witness :
    wfSegs [Seg.tok "Name".toList, Seg.lit ", hi".toList] = true
    ∧ kvsOk [("Name".toList, "Bo".toList)] = true
    ∧ replace_placeholders (replace_placeholders
          (render [Seg.tok "Name".toList, Seg.lit ", hi".toList])
          [("Name".toList, "Bo".toList)]) [("Name".toList, "Bo".toList)]
      = replace_placeholders (render [Seg.tok "Name".toList, Seg.lit ", hi".toList])
          [("Name".toList, "Bo".toList)] :=
  ⟨by decide, by decide, c7_amended_idempotent _ _ (by decide) (by decide)⟩

/-- Claim C4, as stated, is false: for the ill-bracketed text
`\x7ba\x7d\x7ba\x7ba\x7d\x7d` the placeholder set is covered by the given
brace-free-valued mapping, yet substitution leaves a fresh placeholder. -/
theorem c4_counterexample :
    (∀ p ∈ extract_placeholders "\x7ba\x7d\x7ba\x7ba\x7d\x7d".toList,
        p ∈ ([("a".toList, ([] : List Char)), ("a\x7ba".toList, [])].map Prod.fst))
    ∧ (∀ kv ∈ [("a".toList, ([] : List Char)), ("a\x7ba".toList, [])],
        noBrace kv.2 = true)
    ∧ extract_placeholders (replace_placeholders "\x7ba\x7d\x7ba\x7ba\x7d\x7d".toList
        [("a".toList, []), ("a\x7ba".toList, [])]) ≠ [] := by
  exact ⟨by decide, by decide, by decide⟩

/-- Claim C4 (amended): over template text made of brace-free literal runs
and braced tokens with brace-free nonempty names, and a mapping with
brace-free keys and values whose key set covers the extracted placeholder
set, substituting and then extracting yields the empty sequence. -/
theorem c4_amended_roundtrip (segs : List Seg) (v : List (List Char × List Char))
    (hwf : wfSegs segs = true) (hkv : kvsOk v = true)
    (hcov : ∀ p ∈ extract_placeholders (render segs), p ∈ v.map Prod.fst) :
    extract_placeholders (replace_placeholders (render segs) v) = [] := by
  rw [replace_render v segs hwf hkv]
  have hcov' : ∀ p ∈ tokenNames segs, ∃ w, lookupA p v = some w := by
    intro p hp
    apply mem_fst_lookupA
    apply hcov
    refine (dedupAux_mem _ _ _).mpr ⟨?_, by simp⟩
    rw [scanPH_render segs hwf]
    exact hp
  have hnb := render_applySubst_no_open v hkv segs hwf hcov'
  rw [extract_placeholders, scanPH_no_open _ hnb]
  rfl

theorem c4_amended_roundtrip_witness :
    wfSegs [Seg.lit "Dear ".toList, Seg.tok "Name".toList] = true
    ∧ kvsOk [("Name".toList, "Bob".toList)] = true
    ∧ (∀ p ∈ extract_placeholders (render [Seg.lit "Dear ".toList, Seg.tok "Name".toList]),
        p ∈ ([("Name".toList, "Bob".toList)].map Prod.fst))
    ∧ extract_placeholders (replace_placeholders
        (render [Seg.lit "Dear ".toList, Seg.tok "Name".toList])
        [("Name".toList, "Bob".toList)]) = [] :=
  ⟨by decide, by decide, by decide,
    c4_amended_roundtrip _ _ (by decide) (by decide) (by decide)⟩

/-! Infrastructure for claim C5: occurrences of braced tokens survive the
split into lines, the marker handling and the stripping. -/

lemma splitOnNl_ne_nil : ∀ s : List Char, splitOnNl s ≠ [] := by
  intro s
  cases s with
  | nil => simp [splitOnNl]
  | cons c rest =>
    rw [splitOnNl]
    by_cases hc : c = '\n'
    · rw [if_pos hc]; simp
    · rw [if_neg hc]
      cases h : splitOnNl rest <;> simp

lemma pyJoin_splitOnNl : ∀ s : List Char, pyJoin ['\n'] (splitOnNl s) = s := by
  intro s
  induction s with
  | nil => rfl
  | cons c rest ih =>
    rw [splitOnNl]
    by_cases hc : c = '\n'
    · subst hc
      rw [if_pos rfl]
      cases h : splitOnNl rest with
      | nil => exact absurd h (splitOnNl_ne_nil rest)
      | cons l ls =>
        rw [h] at ih
        rw [pyJoin, ih]
        simp
    · rw [if_neg hc]
      cases h : splitOnNl rest with
      | nil => exact absurd h (splitOnNl_ne_nil rest)
      | cons l ls =>
        rw [h] at ih
        cases ls with
        | nil =>
          rw [pyJoin] at ih ⊢
          rw [ih]
        | cons y ys =>
          rw [pyJoin] at ih ⊢
          simp only [List.cons_append]
          rw [ih]

/-- Every name produced by the scanner occurs in the text as a braced
token.  The second conjunct tracks an open buffer: the emitted name either
completes at the first closing brace of the remaining text, or arises
wholly later. -/
lemma scanPH_occurs : ∀ s : List Char,
    (∀ p ∈ scanPH s none, ('{' :: (p ++ ['}'])) <:+: s)
    ∧ (∀ buf p, p ∈ scanPH s (some buf) →
        (∃ q r, s = q ++ '}' :: r ∧ p = buf ++ q) ∨ ('{' :: (p ++ ['}'])) <:+: s) := by
  intro s
  induction s with
  | nil =>
    exact ⟨fun p hp => absurd hp (List.not_mem_nil p),
      fun buf p hp => absurd hp (List.not_mem_nil p)⟩
  | cons c rest ih =>
    obtain ⟨ihn, ihs⟩ := ih
    constructor
    · intro p hp
      by_cases hc : c = '{'
      · subst hc
        rw [scanPH, if_pos rfl] at hp
        rcases ihs [] p hp with ⟨q, r, hqr, hpq⟩ | hinf
        · simp only [List.nil_append] at hpq
          subst hpq
          exact ⟨[], r, by rw [hqr]; simp⟩
        · exact List.infix_cons hinf
      · rw [scanPH, if_neg hc] at hp
        exact List.infix_cons (ihn p hp)
    · intro buf p hp
      by_cases hc : c = '}'
      · subst hc
        rw [scanPH, if_pos rfl] at hp
        by_cases hb : buf = []
        · rw [if_pos hb] at hp
          exact Or.inr (List.infix_cons (ihn p hp))
        · rw [if_neg hb] at hp
          rcases List.mem_cons.mp hp with rfl | hp'
          · exact Or.inl ⟨[], rest, by simp, by simp⟩
          · exact Or.inr (List.infix_cons (ihn p hp'))
      · rw [scanPH, if_neg hc] at hp
        rcases ihs (buf ++ [c]) p hp with ⟨q, r, hqr, hpq⟩ | hinf
        · refine Or.inl ⟨c :: q, r, by rw [hqr]; simp, by rw [hpq]; simp⟩
        · exact Or.inr (List.infix_cons hinf)

/-- A pattern free of the separator that is a prefix of `x ++ sep :: y`
is already a prefix of `x`. -/
lemma prefix_of_append_sep (sep : Char) : ∀ (x : List Char) (pat : List Char)
    (y : List Char), sep ∉ pat → pat <+: (x ++ sep :: y) → pat <+: x := by
  intro x
  induction x with
  | nil =>
    intro pat y hs hp
    cases pat with
    | nil => exact List.nil_prefix
    | cons a pt =>
      rw [List.nil_append] at hp
      obtain ⟨rfl, -⟩ := (List.cons_prefix_cons.mp hp)
      exact absurd (List.mem_cons_self _ _) hs
  | cons d x' ih =>
    intro pat y hs hp
    cases pat with
    | nil => exact List.nil_prefix
    | cons a pt =>
      rw [List.cons_append] at hp
      obtain ⟨rfl, hpt⟩ := List.cons_prefix_cons.mp hp
      exact List.cons_prefix_cons.mpr
        ⟨rfl, ih pt y (fun h => hs (List.mem_cons_of_mem _ h)) hpt⟩

/-- An occurrence of a nonempty separator-free pattern in `a ++ sep :: b`
lies wholly inside `a` or wholly inside `b`. -/
lemma infix_append_split (sep : Char) : ∀ (a pat b : List Char), pat ≠ [] →
    sep ∉ pat → pat <:+: (a ++ sep :: b) → pat <:+: a ∨ pat <:+: b := by
  intro a
  induction a with
  | nil =>
    intro pat b hne hs hinf
    rw [List.nil_append] at hinf
    rcases List.infix_cons_iff.mp hinf with hpre | hinf'
    · cases pat with
      | nil => exact absurd rfl hne
      | cons p0 pt =>
        obtain ⟨rfl, -⟩ := List.cons_prefix_cons.mp hpre
        exact absurd (List.mem_cons_self _ _) hs
    · exact Or.inr hinf'
  | cons d a' ih =>
    intro pat b hne hs hinf
    rw [List.cons_append] at hinf
    rcases List.infix_cons_iff.mp hinf with hpre | hinf'
    · left
      have : pat <+: (d :: a') ++ sep :: b := by
        rw [List.cons_append]
        exact hpre
      exact (prefix_of_append_sep sep (d :: a') pat b hs this).isInfix
    · rcases ih pat b hne hs hinf' with h | h
      · exact Or.inl (List.infix_cons h)
      · exact Or.inr h

/-- An occurrence of a nonempty newline-free pattern in joined lines lies
inside one of the lines. -/
lemma infix_pyJoin_mem : ∀ (lines : List (List Char)) (pat : List Char),
    pat ≠ [] → '\n' ∉ pat → pat <:+: pyJoin ['\n'] lines →
    ∃ l ∈ lines, pat <:+: l := by
  intro lines
  induction lines with
  | nil =>
    intro pat hne _ hinf
    rw [pyJoin] at hinf
    have hlen := hinf.length_le
    simp only [List.length_nil, Nat.le_zero] at hlen
    exact absurd (List.length_eq_zero.mp hlen) hne
  | cons l ls ih =>
    intro pat hne hnl hinf
    cases ls with
    | nil =>
      rw [pyJoin] at hinf
      exact ⟨l, List.mem_cons_self _ _, hinf⟩
    | cons y ys =>
      rw [pyJoin] at hinf
      have hinf' : pat <:+: l ++ '\n' :: pyJoin ['\n'] (y :: ys) := by
        simpa [List.append_assoc] using hinf
      rcases infix_append_split '\n' l pat _ hne hnl hinf' with h | h
      · exact ⟨l, List.mem_cons_self _ _, h⟩
      · obtain ⟨l', hl', hi⟩ := ih pat hne hnl h
        exact ⟨l', List.mem_cons_of_mem _ hl', hi⟩

lemma IsInfix_append_left {l a : List Char} (b : List Char) (h : l <:+: a) :
    l <:+: a ++ b := by
  obtain ⟨s1, s2, hh⟩ := h
  exact ⟨s1, s2 ++ b, by rw [← hh]; simp⟩

lemma IsInfix_append_right {l b : List Char} (a : List Char) (h : l <:+: b) :
    l <:+: a ++ b := by
  obtain ⟨s1, s2, hh⟩ := h
  exact ⟨a ++ s1, s2, by rw [← hh]; simp⟩

lemma mem_infix_pyJoin : ∀ (sep : List Char) (lines : List (List Char)) (l : List Char),
    l ∈ lines → l <:+: pyJoin sep lines := by
  intro sep lines
  induction lines with
  | nil => intro l hl; exact absurd hl (List.not_mem_nil l)
  | cons x xs ih =>
    intro l hl
    rcases List.mem_cons.mp hl with rfl | hl'
    · cases xs with
      | nil => rw [pyJoin]
      | cons y ys =>
        rw [pyJoin]
        exact IsInfix_append_left _ (IsInfix_append_left _ List.infix_rfl)
    · cases xs with
      | nil => exact absurd hl' (List.not_mem_nil l)
      | cons y ys =>
        rw [pyJoin]
        exact IsInfix_append_right _ (ih l hl')

lemma infix_dropWhile (f : Char → Bool) : ∀ (s : List Char) (c : Char) (q : List Char),
    f c = false → (c :: q) <:+: s → (c :: q) <:+: s.dropWhile f := by
  intro s
  induction s with
  | nil =>
    intro c q _ h
    have := h.length_le
    simp at this
  | cons a rest ih =>
    intro c q hf hinf
    by_cases ha : f a = true
    · rw [List.dropWhile_cons_of_pos ha]
      rcases List.infix_cons_iff.mp hinf with hpre | hinf'
      · obtain ⟨rfl, -⟩ := List.cons_prefix_cons.mp hpre
        rw [ha] at hf
        exact absurd hf (by simp)
      · exact ih c q hf hinf'
    · rw [List.dropWhile_cons_of_neg ha]
      exact hinf

/-- A braced occurrence survives stripping: its endpoints are braces, which
are not whitespace. -/
lemma infix_pyStrip (s mid : List Char)
    (h : ('{' :: (mid ++ ['}'])) <:+: s) :
    ('{' :: (mid ++ ['}'])) <:+: pyStrip s := by
  have h1 : ('{' :: (mid ++ ['}'])) <:+: s.dropWhile pySpace :=
    infix_dropWhile pySpace s '{' (mid ++ ['}']) (by decide) h
  have h2 : ('}' :: (mid.reverse ++ ['{'])) <:+: (s.dropWhile pySpace).reverse := by
    have := List.reverse_infix.mpr h1
    simpa using this
  have h3 := infix_dropWhile pySpace _ '}' (mid.reverse ++ ['{']) (by decide) h2
  rw [pyStrip, show ('{' :: (mid ++ ['}'])) = ('}' :: (mid.reverse ++ ['{'])).reverse
    from by simp]
  exact List.reverse_infix.mpr h3

lemma skip_pre_brace : ∀ (pre : List Char), (∀ c ∈ pre, c ≠ '{') →
    ∀ (suf q : List Char), ('{' :: q) <:+: (pre ++ suf) → ('{' :: q) <:+: suf := by
  intro pre
  induction pre with
  | nil => intro _ suf q h; simpa using h
  | cons a pre' ih =>
    intro hpre suf q h
    rw [List.cons_append] at h
    rcases List.infix_cons_iff.mp h with hpre' | h'
    · obtain ⟨heq, -⟩ := List.cons_prefix_cons.mp hpre'
      exact absurd heq.symm (hpre a (List.mem_cons_self _ _))
    · exact ih (fun x hx => hpre x (List.mem_cons_of_mem _ hx)) suf q h'

lemma afterFirstColon_skip : ∀ (pre : List Char), (∀ c ∈ pre, c ≠ ':') →
    ∀ s, afterFirstColon (pre ++ s) = afterFirstColon s := by
  intro pre
  induction pre with
  | nil => intro _ s; rfl
  | cons a pre' ih =>
    intro hpre s
    rw [List.cons_append, afterFirstColon, if_neg (hpre a (List.mem_cons_self _ _))]
    exact ih (fun x hx => hpre x (List.mem_cons_of_mem _ hx)) s

lemma toNat_ofNat_small (n : Nat) (h : n < 55296) : (Char.ofNat n).toNat = n := by
  have hv : n.isValidChar := Or.inl h
  rw [Char.ofNat, dif_pos hv]
  rfl

lemma pyLower_colon : ∀ c : Char, pyLower c = ':' → c = ':' := by
  intro c h
  rw [pyLower] at h
  by_cases hc : 65 ≤ c.toNat ∧ c.toNat ≤ 90
  · rw [if_pos hc] at h
    have hto := congrArg Char.toNat h
    rw [toNat_ofNat_small (c.toNat + 32) (by omega)] at hto
    have h58 : (':' : Char).toNat = 58 := rfl
    rw [h58] at hto
    omega
  · rw [if_neg hc] at h
    exact h

lemma pySpace_ne (c : Char) (h : pySpace c = true) :
    c ≠ ':' ∧ c ≠ '{' := by
  simp only [pySpace, Bool.or_eq_true, beq_iff_eq] at h
  rcases h with ((((rfl | rfl) | rfl) | rfl) | rfl) | rfl <;>
    exact ⟨by decide, by decide⟩

/-- Dissection of a subject-marker line: everything before and including
the first colon contains no opening brace, and the first colon exists, at
the end of the case-folded "subject:" prefix of the stripped line. -/
lemma marker_decomp (line : List Char) (h : isSubjectLine line = true) :
    ∃ pre suf, line = pre ++ suf ∧ (∀ c ∈ pre, c ≠ '{')
      ∧ afterFirstColon line = some suf := by
  rw [isSubjectLine, List.isPrefixOf_iff_prefix] at h
  obtain ⟨u, hu⟩ := h
  -- line = p1 ++ (T ++ p2), where T is the stripped core
  have hline : line.takeWhile pySpace ++ line.dropWhile pySpace = line :=
    List.takeWhile_append_dropWhile pySpace line
  have hD : line.dropWhile pySpace
      = pyStrip line ++ ((line.dropWhile pySpace).reverse.takeWhile pySpace).reverse := by
    conv_lhs => rw [← List.reverse_reverse (line.dropWhile pySpace),
      ← List.takeWhile_append_dropWhile pySpace (line.dropWhile pySpace).reverse]
    rw [List.reverse_append]
    rfl
  -- the stripped core starts with a case variant of "subject:"
  have hmap : List.map pyLower (pyStrip line) = "subject:".toList ++ u := hu.symm
  have hm8 : List.map pyLower ((pyStrip line).take 8) = "subject:".toList := by
    rw [List.map_take, hmap]
    exact List.take_left' (by decide)
  have hmB : ∀ c ∈ (pyStrip line).take 8, c ≠ '{' := by
    intro c hc hcc
    subst hcc
    have hmm : pyLower '{' ∈ "subject:".toList := by
      rw [← hm8]
      exact List.mem_map_of_mem _ hc
    revert hmm
    decide
  have hmlen : ((pyStrip line).take 8).length = 8 := by
    have := congrArg List.length hm8
    simpa using this
  -- the eighth character is the colon
  have hdlen : (((pyStrip line).take 8).drop 7).length = 1 := by
    rw [List.length_drop, hmlen]
  obtain ⟨cc, hcc⟩ := List.length_eq_one.mp hdlen
  have hccol : cc = ':' := by
    apply pyLower_colon
    have hmapd : List.map pyLower (((pyStrip line).take 8).drop 7)
        = ("subject:".toList).drop 7 := by
      rw [List.map_drop, hm8]
    rw [hcc] at hmapd
    simpa using hmapd
  subst hccol
  -- the first seven characters contain no colon
  have ht7 : ∀ c ∈ ((pyStrip line).take 8).take 7, c ≠ ':' := by
    intro c hc hcc
    subst hcc
    have hmm : pyLower ':' ∈ List.map pyLower (((pyStrip line).take 8).take 7) :=
      List.mem_map_of_mem _ hc
    rw [List.map_take, hm8] at hmm
    revert hmm
    decide
  have hm7 : ((pyStrip line).take 8).take 7 ++ [':'] = (pyStrip line).take 8 := by
    conv_rhs => rw [← List.take_append_drop 7 ((pyStrip line).take 8)]
    rw [hcc]
  have hT : ((pyStrip line).take 8) ++ (pyStrip line).drop 8 = pyStrip line :=
    List.take_append_drop 8 (pyStrip line)
  -- assemble the decomposition
  refine ⟨line.takeWhile pySpace ++ ((pyStrip line).take 8).take 7 ++ [':'],
    (pyStrip line).drop 8
      ++ ((line.dropWhile pySpace).reverse.takeWhile pySpace).reverse,
    ?_, ?_, ?_⟩
  · conv_lhs => rw [← hline, hD, ← hT, ← hm7]
    simp [List.append_assoc]
  · intro c hc
    rcases List.mem_append.mp hc with hc | hc
    · rcases List.mem_append.mp hc with hc | hc
      · exact (pySpace_ne c (List.mem_takeWhile_imp hc)).2
      · exact hmB c (List.take_subset _ _ hc)
    · rcases List.mem_singleton.mp hc with rfl
      decide
  · conv_lhs => rw [← hline, hD, ← hT, ← hm7]
    have hskip : ∀ c ∈ line.takeWhile pySpace ++ ((pyStrip line).take 8).take 7,
        c ≠ ':' := by
      intro c hc
      rcases List.mem_append.mp hc with hc | hc
      · exact (pySpace_ne c (List.mem_takeWhile_imp hc)).1
      · exact ht7 c hc
    have harr : line.takeWhile pySpace
          ++ (((pyStrip line).take 8).take 7 ++ [':'] ++ (pyStrip line).drop 8
            ++ ((line.dropWhile pySpace).reverse.takeWhile pySpace).reverse)
        = (line.takeWhile pySpace ++ ((pyStrip line).take 8).take 7)
          ++ ':' :: ((pyStrip line).drop 8
            ++ ((line.dropWhile pySpace).reverse.takeWhile pySpace).reverse) := by
      simp [List.append_assoc]
    rw [harr, afterFirstColon_skip _ hskip, afterFirstColon, if_pos rfl]

/-! Claim C5: the placeholder-in-parse invariant. -/

/-- Claim C5, as stated, is false: in "subject: \x7ba\nb\x7d" the scanner
finds the name "a\nb" spanning the line break, but parsing moves "\x7ba"
into the subject and "b\x7d" into the body, so the braced token (6
characters) cannot occur in the 5-character concatenation. -/
theorem c5_counterexample :
    extract_placeholders "subject: \x7ba\nb\x7d".toList = ["a\nb".toList]
    ∧ ¬ (('{' :: ("a\nb".toList ++ ['}'])) <:+:
        ((extract_subject_and_body "subject: \x7ba\nb\x7d".toList).1
          ++ (extract_subject_and_body "subject: \x7ba\nb\x7d".toList).2)) := by
  refine ⟨by decide, fun h => ?_⟩
  have hlen := h.length_le
  revert hlen
  decide

/-- Claim C5 (amended): for every raw text in which no extracted
placeholder name contains a newline and at most one line carries the
subject marker, every extracted name appears literally as a braced token in
the concatenation of the subject and body produced by parsing that text. -/
theorem c5_amended_invariant (t : List Char)
    (h1 : ∀ p ∈ extract_placeholders t, '\n' ∉ p)
    (h2 : ((splitOnNl t).filter (fun l => isSubjectLine l)).length ≤ 1) :
    ∀ p ∈ extract_placeholders t,
      ('{' :: (p ++ ['}'])) <:+:
        ((extract_subject_and_body t).1 ++ (extract_subject_and_body t).2) := by
  intro p hp
  have hscan : p ∈ scanPH t none := ((dedupAux_mem _ _ _).mp hp).1
  have hinf : ('{' :: (p ++ ['}'])) <:+: t := (scanPH_occurs t).1 p hscan
  have hnl : '\n' ∉ ('{' :: (p ++ ['}'])) := by
    intro hm
    rcases List.mem_cons.mp hm with h | h
    · exact absurd h (by decide)
    · rcases List.mem_append.mp h with h | h
      · exact h1 p hp h
      · rcases List.mem_singleton.mp h with h
        exact absurd h (by decide)
  have hinfJ : ('{' :: (p ++ ['}'])) <:+: pyJoin ['\n'] (splitOnNl t) := by
    rw [pyJoin_splitOnNl]
    exact hinf
  obtain ⟨line, hline, hpl⟩ :=
    infix_pyJoin_mem (splitOnNl t) _ (by simp) hnl hinfJ
  rw [esb_eq]
  by_cases hm : isSubjectLine line = true
  · have hmem : line ∈ (splitOnNl t).filter (fun l => isSubjectLine l) :=
      List.mem_filter.mpr ⟨hline, hm⟩
    have hflt : (splitOnNl t).filter (fun l => isSubjectLine l) = [line] := by
      cases hf : (splitOnNl t).filter (fun l => isSubjectLine l) with
      | nil => rw [hf] at hmem; exact absurd hmem (List.not_mem_nil _)
      | cons a as =>
        rw [hf] at hmem h2
        cases as with
        | nil =>
          rcases List.mem_singleton.mp hmem with rfl
          rfl
        | cons b bs => simp at h2
    have hsubj : specSubjectLast t = subjectOf line := by
      rw [specSubjectLast, hflt]
      rfl
    obtain ⟨pre, suf, hls, hpreB, hafc⟩ := marker_decomp line hm
    have hin_suf : ('{' :: (p ++ ['}'])) <:+: suf := by
      apply skip_pre_brace pre hpreB suf
      rw [← hls]
      exact hpl
    have hin_subj : ('{' :: (p ++ ['}'])) <:+: subjectOf line := by
      rw [subjectOf, hafc]
      exact infix_pyStrip suf p hin_suf
    rw [hsubj]
    exact IsInfix_append_left _ hin_subj
  · have hmem : line ∈ (splitOnNl t).filter (fun l => !(isSubjectLine l)) :=
      List.mem_filter.mpr ⟨hline, by simp [hm]⟩
    have hinJ : ('{' :: (p ++ ['}'])) <:+:
        pyJoin ['\n'] ((splitOnNl t).filter (fun l => !(isSubjectLine l))) :=
      hpl.trans (mem_infix_pyJoin ['\n'] _ line hmem)
    have hb : ('{' :: (p ++ ['}'])) <:+: specBodyRest t := by
      rw [specBodyRest]
      exact infix_pyStrip _ p hinJ
    exact IsInfix_append_right _ hb

theorem c5_amended_invariant_witness :
    (∀ p ∈ extract_placeholders "subject: Hi \x7bName\x7d\nBody \x7bRole\x7d".toList,
        '\n' ∉ p)
    ∧ ((splitOnNl "subject: Hi \x7bName\x7d\nBody \x7bRole\x7d".toList).filter
        (fun l => isSubjectLine l)).length ≤ 1
    ∧ ∀ p ∈ extract_placeholders "subject: Hi \x7bName\x7d\nBody \x7bRole\x7d".toList,
        ('{' :: (p ++ ['}'])) <:+:
          ((extract_subject_and_body "subject: Hi \x7bName\x7d\nBody \x7bRole\x7d".toList).1
            ++ (extract_subject_and_body "subject: Hi \x7bName\x7d\nBody \x7bRole\x7d".toList).2) :=
  ⟨by decide, by decide,
    c5_amended_invariant "subject: Hi \x7bName\x7d\nBody \x7bRole\x7d".toList
      (by decide) (by decide)⟩

end EmailApp
